import Mathlib

/-!
Verification of `convert_to_webdataset.py`: the shard planner, sample
validator, shard serializer and parallel orchestrator that turn an indexable
dataset of samples into WebDataset tar shards.

Numeric array elements are modelled by `FVal`: a finite value (modelled with
an integer payload) or one of the non-finite IEEE values NaN, +inf, -inf,
which is all the validator (`np.isnan(...).any() or np.isinf(...).any()`)
distinguishes.  Byte strings are modelled as `List Nat`.
-/

/-- One element of a numpy array: either finite or one of the non-finite
IEEE values that `np.isnan` / `np.isinf` detect. -/
inductive FVal where
  | num : Int → FVal
  | nan : FVal
  | inf : FVal
  | ninf : FVal
deriving DecidableEq, Repr

/-- `np.isnan` on one element. -/
def FVal.isNan : FVal → Bool
  | .nan => true
  | _ => false

/-- `np.isinf` on one element (true for both +inf and -inf). -/
def FVal.isInf : FVal → Bool
  | .inf => true
  | .ninf => true
  | _ => false

/-- `np.isnan(xs).any()`. -/
def np_isnan_any (xs : List FVal) : Bool := xs.any FVal.isNan

/-- `np.isinf(xs).any()`. -/
def np_isinf_any (xs : List FVal) : Bool := xs.any FVal.isInf

/-- The skip condition of `save_shard` line 26:
`np.isnan(sample["input_features"]).any() or np.isinf(sample["input_features"]).any()`.
Note it is applied to `input_features` only; `labels` is never passed in. -/
def invalidFeatures (xs : List FVal) : Bool := np_isnan_any xs || np_isinf_any xs

/-- One dataset sample: the two numeric array fields used by the program. -/
structure Sample where
  input_features : List FVal
  labels : List FVal
deriving DecidableEq, Repr

/-! ### Decimal formatting (`f"{n:06d}"`, `f"{n:05d}"`)

Python's `{n:0wd}` renders `n` in decimal, left-padded with `'0'` to width
`w`.  We build the decimal digit string by fuelled structural recursion so
that every definition evaluates in the kernel. -/

/-- Little-endian decimal digits of `n`, with explicit fuel (`decDigitsAux
fuel n` is correct whenever `n ≤ fuel`).  `decDigitsAux _ 0 = []`: zero
renders as the empty digit string and is produced by padding alone, exactly
as `f"{0:06d}" = "000000"`. -/
def decDigitsAux : Nat → Nat → List Nat
  | _, 0 => []
  | 0, _ + 1 => []
  | fuel + 1, n + 1 => (n + 1) % 10 :: decDigitsAux fuel ((n + 1) / 10)

/-- Little-endian decimal digits of `n`. -/
def decDigits (n : Nat) : List Nat := decDigitsAux n n

/-- Value of a little-endian decimal digit list. -/
def ofDecDigits : List Nat → Nat
  | [] => 0
  | d :: ds => d + 10 * ofDecDigits ds

/-- The character for decimal digit `d`. -/
def digitChar (d : Nat) : Char := Char.ofNat (48 + d)

/-- Decimal rendering of `n` as characters, most significant first. -/
def decChars (n : Nat) : List Char := (decDigits n).reverse.map digitChar

/-- `f"{n:0wd}"` as a character list: decimal digits of `n` left-padded with
`'0'` to width `w`. -/
def zpadChars (w n : Nat) : List Char :=
  List.replicate (w - (decChars n).length) '0' ++ decChars n

/-- Numeric value of a digit character. -/
def charDigit (c : Char) : Nat := c.toNat - 48

/-- Read a zero-padded decimal character list back as a number. -/
def unpadChars (cs : List Char) : Nat := ofDecDigits (cs.map charDigit).reverse

/-- Record key of `save_shard` line 25: `f"sample{sample_idx:06d}"`. -/
def sampleKey (j : Nat) : String := String.mk ("sample".data ++ zpadChars 6 j)

/-- Shard file name of `save_shard` line 22: `f"shard-{shard_idx:05d}.tar"`. -/
def shardFileName (shard_idx : Nat) : String :=
  String.mk ("shard-".data ++ zpadChars 5 shard_idx ++ ".tar".data)

/-- `os.path.join(output_dir, fname)` for a relative `fname`. -/
def pathJoin (dir fname : String) : String := dir ++ "/" ++ fname

/-! ### Round-trip lemmas for the decimal formatter -/

theorem ofDecDigits_decDigitsAux (fuel : Nat) :
    ∀ n, n ≤ fuel → ofDecDigits (decDigitsAux fuel n) = n := by
  induction fuel with
  | zero =>
    intro n hn
    interval_cases n
    rfl
  | succ fuel ih =>
    intro n hn
    match n with
    | 0 => rfl
    | m + 1 =>
      have hdiv : (m + 1) / 10 ≤ fuel := by
        have := Nat.div_lt_self (Nat.succ_pos m) (by omega : 1 < 10)
        omega
      have hrec := ih ((m + 1) / 10) hdiv
      have hmod := Nat.div_add_mod (m + 1) 10
      simp only [decDigitsAux, ofDecDigits, hrec]
      omega

theorem ofDecDigits_decDigits (n : Nat) : ofDecDigits (decDigits n) = n :=
  ofDecDigits_decDigitsAux n n (Nat.le_refl n)

theorem decDigitsAux_lt_ten (fuel : Nat) :
    ∀ n d, d ∈ decDigitsAux fuel n → d < 10 := by
  induction fuel with
  | zero =>
    intro n d hd
    match n with
    | 0 => simp [decDigitsAux] at hd
    | _ + 1 => simp [decDigitsAux] at hd
  | succ fuel ih =>
    intro n d hd
    match n with
    | 0 => simp [decDigitsAux] at hd
    | m + 1 =>
      simp only [decDigitsAux, List.mem_cons] at hd
      rcases hd with h | h
      · have := Nat.mod_lt (m + 1) (by omega : 0 < 10)
        omega
      · exact ih _ _ h

theorem decDigits_lt_ten (n d : Nat) (hd : d ∈ decDigits n) : d < 10 :=
  decDigitsAux_lt_ten n n d hd

theorem charDigit_digitChar (d : Nat) (hd : d < 10) :
    charDigit (digitChar d) = d := by
  interval_cases d <;> decide

theorem ofDecDigits_append_replicate_zero (l : List Nat) :
    ∀ k, ofDecDigits (l ++ List.replicate k 0) = ofDecDigits l := by
  induction l with
  | nil =>
    intro k
    induction k with
    | zero => rfl
    | succ k ihk => simpa [List.replicate_succ, ofDecDigits] using ihk
  | cons d ds ih =>
    intro k
    simp [ofDecDigits, ih]

theorem unpadChars_zpadChars (w n : Nat) : unpadChars (zpadChars w n) = n := by
  unfold unpadChars zpadChars
  rw [List.map_append, List.reverse_append]
  have h1 : (decChars n).map charDigit = (decDigits n).reverse := by
    unfold decChars
    rw [List.map_map]
    have : ∀ d ∈ (decDigits n).reverse, (charDigit ∘ digitChar) d = id d := by
      intro d hd
      have : d < 10 := decDigits_lt_ten n d (List.mem_reverse.mp hd)
      simp [Function.comp, charDigit_digitChar d this]
    rw [List.map_congr_left this, List.map_id]
  have h2 : (List.replicate (w - (decChars n).length) '0').map charDigit
      = List.replicate (w - (decChars n).length) 0 := by
    rw [List.map_replicate]
    rfl
  rw [h1, h2, List.reverse_reverse, List.reverse_replicate,
    ofDecDigits_append_replicate_zero, ofDecDigits_decDigits]

theorem zpadChars_injective (w : Nat) : Function.Injective (zpadChars w) := by
  intro a b hab
  have := unpadChars_zpadChars w a
  rw [hab, unpadChars_zpadChars w b] at this
  omega

theorem sampleKey_injective : Function.Injective sampleKey := by
  intro a b hab
  unfold sampleKey at hab
  have hdata : "sample".data ++ zpadChars 6 a = "sample".data ++ zpadChars 6 b := by
    injection hab
  exact zpadChars_injective 6 (List.append_cancel_left hdata)

theorem shardFileName_injective : Function.Injective shardFileName := by
  intro a b hab
  unfold shardFileName at hab
  have hdata : "shard-".data ++ zpadChars 5 a ++ ".tar".data
      = "shard-".data ++ zpadChars 5 b ++ ".tar".data := by
    injection hab
  rw [List.append_assoc, List.append_assoc] at hdata
  have h1 := List.append_cancel_left hdata
  exact zpadChars_injective 5 (List.append_cancel_right h1)

/-! ### The npz container codec

Modelled from the spec: `np.savez_compressed` / `np.load` are external
(numpy) code, specified as "independently encode ... into a compressed,
self-describing binary container format (one named array per container)"
with the round-trip law "decoding a written record's two binary members
reproduces the original `input_features` and `labels` arrays exactly
(lossless compression)".  We model the container as a concrete executable
byte format: a length-prefixed array name followed by a length-prefixed
sequence of fixed-width element encodings. -/

/-- Encode one array element as three bytes: a tag byte (0 = NaN, 1 = +inf,
2 = -inf, 3 = finite), a sign byte and a magnitude. -/
def encodeFVal : FVal → List Nat
  | .nan => [0, 0, 0]
  | .inf => [1, 0, 0]
  | .ninf => [2, 0, 0]
  | .num z => [3, if z < 0 then 1 else 0, z.natAbs]

/-- Decode one three-byte element encoding. -/
def decodeFVal (t s m : Nat) : FVal :=
  if t = 0 then .nan
  else if t = 1 then .inf
  else if t = 2 then .ninf
  else .num (if s = 1 then -(m : Int) else (m : Int))

/-- Decode `k` consecutive three-byte element encodings. -/
def decodeFVals : Nat → List Nat → Option (List FVal)
  | 0, [] => some []
  | k + 1, t :: s :: m :: rest => (decodeFVals k rest).map (decodeFVal t s m :: ·)
  | _, _ => none

/-- Encode an array name as its length-prefixed character codes. -/
def encodeName (name : String) : List Nat :=
  name.data.length :: name.data.map Char.toNat

/-- `np.savez_compressed(buffer, name=xs)`: the bytes of a container holding
the single named array `xs`. -/
def savez_compressed (name : String) (xs : List FVal) : List Nat :=
  encodeName name ++ xs.length :: xs.flatMap encodeFVal

/-- `np.load` on a container holding one named array: recover the name and
the array, or `none` on a malformed container. -/
def np_load (bytes : List Nat) : Option (String × List FVal) :=
  match bytes with
  | [] => none
  | nameLen :: rest =>
    if nameLen ≤ rest.length then
      let name := String.mk ((rest.take nameLen).map Char.ofNat)
      match rest.drop nameLen with
      | [] => none
      | count :: payload => (decodeFVals count payload).map (fun xs => (name, xs))
    else none

theorem decodeFVal_encodeFVal (v : FVal) :
    ∀ t s m, encodeFVal v = [t, s, m] → decodeFVal t s m = v := by
  intro t s m h
  cases v with
  | nan =>
    injection h with h1 h2
    injection h2 with h2 h3
    injection h3 with h3 _
    subst h1; subst h2; subst h3
    rfl
  | inf =>
    injection h with h1 h2
    injection h2 with h2 h3
    injection h3 with h3 _
    subst h1; subst h2; subst h3
    rfl
  | ninf =>
    injection h with h1 h2
    injection h2 with h2 h3
    injection h3 with h3 _
    subst h1; subst h2; subst h3
    rfl
  | num z =>
    injection h with h1 h2
    injection h2 with h2 h3
    injection h3 with h3 _
    subst h1; subst h3
    by_cases hz : z < 0
    · rw [if_pos hz] at h2
      subst h2
      show decodeFVal 3 1 z.natAbs = .num z
      unfold decodeFVal
      rw [if_neg (by omega), if_neg (by omega), if_neg (by omega), if_pos rfl]
      congr 1
      omega
    · rw [if_neg hz] at h2
      subst h2
      show decodeFVal 3 0 z.natAbs = .num z
      unfold decodeFVal
      rw [if_neg (by omega), if_neg (by omega), if_neg (by omega),
        if_neg (by omega)]
      congr 1
      omega

theorem decodeFVals_flatMap_encodeFVal (xs : List FVal) :
    decodeFVals xs.length (xs.flatMap encodeFVal) = some xs := by
  induction xs with
  | nil => rfl
  | cons v vs ih =>
    have hv : ∃ t s m, encodeFVal v = [t, s, m] := by
      cases v <;> exact ⟨_, _, _, rfl⟩
    obtain ⟨t, s, m, hv⟩ := hv
    simp only [List.flatMap_cons, List.length_cons, hv, List.cons_append,
      List.nil_append, decodeFVals, ih]
    rw [decodeFVal_encodeFVal v t s m hv]
    rfl

theorem take_length_append {α : Type} (l₁ l₂ : List α) :
    (l₁ ++ l₂).take l₁.length = l₁ := by
  induction l₁ with
  | nil => rfl
  | cons a l ih => simp [List.take, ih]

theorem drop_length_append {α : Type} (l₁ l₂ : List α) :
    (l₁ ++ l₂).drop l₁.length = l₂ := by
  induction l₁ with
  | nil => rfl
  | cons a l ih => simp [List.drop, ih]

/-- Round trip of the container codec: loading the bytes written by
`savez_compressed` recovers the array name and the array exactly. -/
theorem np_load_savez_compressed (name : String) (xs : List FVal) :
    np_load (savez_compressed name xs) = some (name, xs) := by
  unfold np_load savez_compressed encodeName
  simp only [List.cons_append]
  have hlen : name.data.length ≤
      (name.data.map Char.toNat ++ xs.length :: xs.flatMap encodeFVal).length := by
    simp
  rw [if_pos hlen]
  have hml : name.data.length = (name.data.map Char.toNat).length := by simp
  rw [hml, take_length_append, drop_length_append]
  simp only [List.map_map]
  have hname : ∀ c ∈ name.data, (Char.ofNat ∘ Char.toNat) c = id c := by
    intro c _
    simp [Function.comp, Char.ofNat_toNat]
  rw [List.map_congr_left hname, List.map_id, decodeFVals_flatMap_encodeFVal]
  rfl

/-! ### The shard serializer (`save_shard`, lines 14-42) -/

/-- One record written by `sink.write` (lines 38-42): the key and the two
compressed binary members. -/
structure Record where
  key : String
  input_npz : List Nat
  labels_npz : List Nat
deriving DecidableEq, Repr

/-- The record built for the sample at local position `j` (lines 25, 30-42):
key `f"sample{j:06d}"`, `input.npz` holding the compressed `input_features`
array and `labels.npz` holding the compressed `labels` array. -/
def writeRecord (j : Nat) (s : Sample) : Record :=
  { key := sampleKey j
    input_npz := savez_compressed "input_features" s.input_features
    labels_npz := savez_compressed "labels" s.labels }

/-- The record list written by the loop of `save_shard` (lines 24-42): each
sample is paired with its position in the input slice, skipped when its
`input_features` contains a NaN or infinity, and serialized otherwise. -/
def save_shard (shard_samples : List Sample) : List Record :=
  shard_samples.enum.filterMap fun p =>
    if invalidFeatures p.2.input_features then none else some (writeRecord p.1 p.2)

/-- The shard file produced by one `save_shard` call: the tar path opened at
line 22-23 and the records written into it. -/
structure ShardFile where
  path : String
  records : List Record
deriving DecidableEq, Repr

/-! ### The worker (`process_single_shard`, lines 45-57) -/

/-- The dataset indices touched by `dataset.select(range(start_idx,
min(len(dataset), end_idx)))` at line 55, with `end_idx = start_idx +
shard_size` (line 54). -/
def accessedIndices (dsLen start_idx shard_size : Nat) : List Nat :=
  List.range' start_idx (min dsLen (start_idx + shard_size) - start_idx)

/-- The shard slice selected at line 55: the samples at the accessed
indices. -/
def shardSlice (dataset : List Sample) (start_idx shard_size : Nat) : List Sample :=
  (accessedIndices dataset.length start_idx shard_size).filterMap
    fun i => dataset[i]?

/-- `process_single_shard` (lines 45-57): select the shard's slice and save
it under the shard's tar path. -/
def process_single_shard (dataset : List Sample) (shard_idx start_idx : Nat)
    (output_dir : String) (shard_size : Nat) : ShardFile :=
  { path := pathJoin output_dir (shardFileName shard_idx)
    records := save_shard (shardSlice dataset start_idx shard_size) }

/-! ### The shard planner and orchestrator (`create_webdataset`, lines 60-84) -/

/-- `total_shards = (total_samples + shard_size - 1) // shard_size`
(line 74). -/
def total_shards (total_samples shard_size : Nat) : Nat :=
  (total_samples + shard_size - 1) / shard_size

/-- One planned task: the per-task fields of the tuple built at line 77
(the dataset, output dir and shard size are shared by all tasks). -/
structure ShardTask where
  shard_index : Nat
  start_offset : Nat
deriving DecidableEq, Repr

/-- The `shard_tasks` list (lines 76-79): task `i` has shard index
`shard_start_idx + i` and start offset `i * shard_size`. -/
def shard_tasks (total_samples shard_size shard_start_idx : Nat) : List ShardTask :=
  (List.range (total_shards total_samples shard_size)).map fun i =>
    { shard_index := shard_start_idx + i, start_offset := i * shard_size }

/-- Execute the planned tasks in a given completion order: `imap_unordered`
(line 83) may complete tasks in any order, each one evaluated by the pure
per-task function `process_single_shard`. -/
def runTasks (dataset : List Sample) (output_dir : String) (shard_size : Nat)
    (order : List ShardTask) : List ShardFile :=
  order.map fun t =>
    process_single_shard dataset t.shard_index t.start_offset output_dir shard_size

/-- `create_webdataset` (lines 60-84): plan the tasks from the dataset
length and run them all. -/
def create_webdataset (dataset : List Sample) (output_dir : String)
    (shard_size shard_start_idx : Nat) : List ShardFile :=
  runTasks dataset output_dir shard_size
    (shard_tasks dataset.length shard_size shard_start_idx)

/-- Samples of a slice skipped by the validator check at line 26. -/
def skippedCount (samples : List Sample) : Nat :=
  (samples.filter fun s => invalidFeatures s.input_features).length

/-! ### The output directory as a file store

Modelled from the library semantics of `wds.TarWriter(shard_path)` (line
23): the writer opens `shard_path` for writing in truncating mode, so a
pre-existing file at that path is replaced.  The store maps paths to record
lists; a write shadows any earlier entry for the same path. -/

/-- A file store: newest entry for a path first. -/
def FileStore := List (String × List Record)

/-- Read the current contents at `path`. -/
def fsRead (fs : FileStore) (path : String) : Option (List Record) :=
  (fs.find? fun e => e.1 == path).map (·.2)

/-- Open `path` for writing and write `contents`: the new entry shadows any
previous file at the same path. -/
def fsWrite (fs : FileStore) (path : String) (contents : List Record) : FileStore :=
  (path, contents) :: fs

/-- `save_shard` against the file store (lines 22-23 + the write loop): the
tar at the shard's path is (re)created and receives the shard's records. -/
def save_shard_fs (fs : FileStore) (output_dir : String) (shard_idx : Nat)
    (shard_samples : List Sample) : FileStore :=
  fsWrite fs (pathJoin output_dir (shardFileName shard_idx)) (save_shard shard_samples)

/-! ### Arithmetic facts about `total_shards` -/

theorem total_shards_mul_le (N S : Nat) (_hS : 0 < S) :
    total_shards N S * S ≤ N + S - 1 := by
  unfold total_shards
  have := Nat.div_mul_le_self (N + S - 1) S
  omega

theorem le_total_shards_mul (N S : Nat) (hS : 0 < S) :
    N ≤ total_shards N S * S := by
  unfold total_shards
  have hdm := Nat.div_add_mod (N + S - 1) S
  have hlt := Nat.mod_lt (N + S - 1) hS
  have hcomm : S * ((N + S - 1) / S) = (N + S - 1) / S * S := Nat.mul_comm _ _
  omega

theorem mul_le_of_lt_total_shards (N S i : Nat) (hS : 0 < S)
    (hi : i < total_shards N S) : i * S + S ≤ N + S - 1 := by
  have h1 : (i + 1) * S ≤ total_shards N S * S :=
    Nat.mul_le_mul_right S hi
  have h2 := total_shards_mul_le N S hS
  have h3 : (i + 1) * S = i * S + S := by ring
  omega

/-! ### The partition of `[0, N)` into shard index ranges -/

theorem length_accessedIndices (N start S : Nat) :
    (accessedIndices N start S).length = min N (start + S) - start := by
  simp [accessedIndices]

theorem flatMap_range_accessedIndices (N S : Nat) (hS : 0 < S) :
    ∀ j, j ≤ total_shards N S →
      (List.range j).flatMap (fun i => accessedIndices N (i * S) S)
        = List.range (min N (j * S)) := by
  intro j
  induction j with
  | zero => intro _; simp
  | succ j ih =>
    intro hj
    have hjle : j ≤ total_shards N S := Nat.le_of_succ_le hj
    have hjS : j * S ≤ N := by
      have := mul_le_of_lt_total_shards N S j hS hj
      omega
    rw [List.range_succ, List.flatMap_append, ih hjle]
    have hmin : min N (j * S) = j * S := Nat.min_eq_right hjS
    rw [hmin]
    simp only [List.flatMap_cons, List.flatMap_nil, List.append_nil,
      accessedIndices]
    have hstart : j * S ≤ min N (j * S + S) := by omega
    rw [List.range_eq_range', List.range_eq_range']
    have := List.range'_append 0 (j * S) (min N (j * S + S) - j * S) 1
    simp only [Nat.one_mul, Nat.zero_add] at this
    rw [this]
    have hSS : (j + 1) * S = j * S + S := by ring
    congr 1
    omega

theorem partition_shard_tasks (N S k : Nat) (hS : 0 < S) :
    (shard_tasks N S k).flatMap (fun t => accessedIndices N t.start_offset S)
      = List.range N := by
  unfold shard_tasks
  rw [List.flatMap_map]
  have h := flatMap_range_accessedIndices N S hS (total_shards N S) (Nat.le_refl _)
  have hmin : min N (total_shards N S * S) = N :=
    Nat.min_eq_left (le_total_shards_mul N S hS)
  simpa [hmin] using h

/-! ### Structural lemmas about `save_shard` and the shard slice -/

theorem filterMap_if_eq_filter_map {α β : Type} (c : α → Bool) (g : α → β)
    (l : List α) :
    (l.filterMap fun a => if c a then none else some (g a))
      = (l.filter fun a => !c a).map g := by
  induction l with
  | nil => rfl
  | cons a l ih =>
    by_cases h : c a
    · simp [List.filterMap_cons, List.filter_cons, h, ih]
    · simp [List.filterMap_cons, List.filter_cons, h, ih]

theorem save_shard_eq_filter (shard_samples : List Sample) :
    save_shard shard_samples
      = ((shard_samples.enum.filter
            fun p => !invalidFeatures p.2.input_features).map
          fun p => writeRecord p.1 p.2) := by
  unfold save_shard
  exact filterMap_if_eq_filter_map _ _ _

theorem countP_enumFrom_snd {α : Type} (q : α → Bool) (l : List α) :
    ∀ n, (List.enumFrom n l).countP (fun p => q p.2) = l.countP q := by
  induction l with
  | nil => intro n; rfl
  | cons a l ih =>
    intro n
    simp only [List.enumFrom, List.countP_cons, ih]

theorem length_save_shard (shard_samples : List Sample) :
    (save_shard shard_samples).length
      = shard_samples.countP fun s => !invalidFeatures s.input_features := by
  rw [save_shard_eq_filter, List.length_map, ← List.countP_eq_length_filter]
  simpa [List.enum] using
    countP_enumFrom_snd (fun s => !invalidFeatures s.input_features) shard_samples 0

theorem countP_not_add_countP {α : Type} (p : α → Bool) (l : List α) :
    l.countP (fun a => !p a) + l.countP p = l.length := by
  induction l with
  | nil => rfl
  | cons a l ih =>
    simp only [List.countP_cons, List.length_cons]
    by_cases h : p a <;> simp [h] <;> omega

theorem length_filterMap_of_isSome {α β : Type} (f : α → Option β) (l : List α)
    (h : ∀ a ∈ l, (f a).isSome) : (l.filterMap f).length = l.length := by
  induction l with
  | nil => rfl
  | cons a l ih =>
    have ha : (f a).isSome := h a (List.mem_cons_self a l)
    obtain ⟨b, hb⟩ := Option.isSome_iff_exists.mp ha
    rw [List.filterMap_cons, hb, List.length_cons, List.length_cons,
      ih fun x hx => h x (List.mem_cons_of_mem a hx)]

theorem accessedIndices_lt (dsLen start_idx shard_size : Nat) :
    ∀ i ∈ accessedIndices dsLen start_idx shard_size, i < dsLen := by
  intro i hi
  rw [accessedIndices, List.mem_range'_1] at hi
  omega

theorem length_shardSlice (dataset : List Sample) (start_idx shard_size : Nat) :
    (shardSlice dataset start_idx shard_size).length
      = (accessedIndices dataset.length start_idx shard_size).length := by
  unfold shardSlice
  apply length_filterMap_of_isSome
  intro i hi
  have hlt := accessedIndices_lt dataset.length start_idx shard_size i hi
  rw [List.getElem?_eq_getElem hlt]
  rfl

/-! ### Claim theorems -/

/-- C1: for every `total_samples = N ≥ 0`, `shard_size = S > 0` and
`shard_start_idx = k ≥ 0`, the planner produces exactly `ceil(N/S)` shard
tasks; task `i` has `shard_index = k + i` and covers the contiguous index
range starting at `i*S` with `min(S, N - i*S)` samples; the tasks partition
`[0, N)` with no gaps or overlaps; when `N = 0` the task sequence is
empty. -/
theorem planner_partitions (N S k : Nat) (hS : 0 < S) :
    (shard_tasks N S k).length = (N + S - 1) / S
    ∧ (∀ i, i < total_shards N S →
        (shard_tasks N S k)[i]? = some ⟨k + i, i * S⟩
        ∧ accessedIndices N (i * S) S = List.range' (i * S) (min S (N - i * S))
        ∧ (accessedIndices N (i * S) S).length = min S (N - i * S))
    ∧ (shard_tasks N S k).flatMap (fun t => accessedIndices N t.start_offset S)
        = List.range N
    ∧ (N = 0 → shard_tasks N S k = []) := by
  refine ⟨?_, ?_, partition_shard_tasks N S k hS, ?_⟩
  · simp [shard_tasks, total_shards]
  · intro i hi
    have hiS : i * S + S ≤ N + S - 1 := mul_le_of_lt_total_shards N S i hS hi
    have hle : i * S ≤ N := by omega
    have hcount : min N (i * S + S) - i * S = min S (N - i * S) := by omega
    refine ⟨?_, ?_, ?_⟩
    · unfold shard_tasks
      rw [List.getElem?_map, List.getElem?_range hi]
      rfl
    · unfold accessedIndices
      rw [hcount]
    · rw [length_accessedIndices, hcount]
  · intro hN
    subst hN
    have : total_shards 0 S = 0 := by
      unfold total_shards
      exact Nat.div_eq_of_lt (by omega)
    simp [shard_tasks, this]

/-- C1 witness: the planner at `N = 5`, `S = 2`, `k = 3`. -/
theorem planner_partitions_witness :
    (shard_tasks 5 2 3).length = (5 + 2 - 1) / 2
    ∧ (∀ i, i < total_shards 5 2 →
        (shard_tasks 5 2 3)[i]? = some ⟨3 + i, i * 2⟩
        ∧ accessedIndices 5 (i * 2) 2 = List.range' (i * 2) (min 2 (5 - i * 2))
        ∧ (accessedIndices 5 (i * 2) 2).length = min 2 (5 - i * 2))
    ∧ (shard_tasks 5 2 3).flatMap (fun t => accessedIndices 5 t.start_offset 2)
        = List.range 5
    ∧ (5 = 0 → shard_tasks 5 2 3 = []) :=
  planner_partitions 5 2 3 (by decide)

/-- C9: every dataset index a worker accesses lies in
`range(start_idx, min(len(dataset), start_idx + shard_size))`, and in
particular is strictly below the dataset length, so the final partial
shard's slice is clamped and no out-of-range index is ever selected. -/
theorem worker_accesses_in_bounds (dataset : List Sample)
    (start_idx shard_size : Nat) :
    accessedIndices dataset.length start_idx shard_size
      = List.range' start_idx
          (min dataset.length (start_idx + shard_size) - start_idx)
    ∧ ∀ i ∈ accessedIndices dataset.length start_idx shard_size,
        i < dataset.length ∧ (dataset[i]?).isSome := by
  refine ⟨rfl, fun i hi => ?_⟩
  have hlt := accessedIndices_lt dataset.length start_idx shard_size i hi
  refine ⟨hlt, ?_⟩
  rw [List.getElem?_eq_getElem hlt]
  rfl

/-- C9 witness: the final partial shard of a 5-sample dataset with
`shard_size = 2` starting at index 4 touches only index 4. -/
theorem worker_accesses_in_bounds_witness :
    (accessedIndices (List.length
          [Sample.mk [FVal.num 1] [], Sample.mk [FVal.num 2] [],
            Sample.mk [FVal.num 3] [], Sample.mk [FVal.num 4] [],
            Sample.mk [FVal.num 5] []]) 4 2
      = List.range' 4 (min (List.length
          [Sample.mk [FVal.num 1] [], Sample.mk [FVal.num 2] [],
            Sample.mk [FVal.num 3] [], Sample.mk [FVal.num 4] [],
            Sample.mk [FVal.num 5] []]) (4 + 2) - 4))
    ∧ ∀ i ∈ accessedIndices (List.length
          [Sample.mk [FVal.num 1] [], Sample.mk [FVal.num 2] [],
            Sample.mk [FVal.num 3] [], Sample.mk [FVal.num 4] [],
            Sample.mk [FVal.num 5] []]) 4 2,
        i < List.length
          [Sample.mk [FVal.num 1] [], Sample.mk [FVal.num 2] [],
            Sample.mk [FVal.num 3] [], Sample.mk [FVal.num 4] [],
            Sample.mk [FVal.num 5] []]
        ∧ (([Sample.mk [FVal.num 1] [], Sample.mk [FVal.num 2] [],
            Sample.mk [FVal.num 3] [], Sample.mk [FVal.num 4] [],
            Sample.mk [FVal.num 5] []])[i]?).isSome :=
  worker_accesses_in_bounds
    [Sample.mk [FVal.num 1] [], Sample.mk [FVal.num 2] [],
      Sample.mk [FVal.num 3] [], Sample.mk [FVal.num 4] [],
      Sample.mk [FVal.num 5] []] 4 2

theorem save_shard_eq_nil_of_all_invalid (shard_samples : List Sample)
    (hall : ∀ s ∈ shard_samples, invalidFeatures s.input_features = true) :
    save_shard shard_samples = [] := by
  rw [save_shard_eq_filter]
  rw [List.map_eq_nil_iff, List.filter_eq_nil_iff]
  intro p hp
  rw [List.mem_enum_iff_getElem?] at hp
  have hmem : p.2 ∈ shard_samples := by
    rw [List.getElem?_eq_some] at hp
    obtain ⟨hlt, hval⟩ := hp
    exact hval ▸ List.getElem_mem hlt
  simp [hall p.2 hmem]

/-- C8: a shard archive is created for every planned task even when every
sample of the task's slice is invalid: a fully skipped slice yields a shard
file at the task's path holding zero records, not a missing file. -/
theorem empty_shard_still_created (dataset : List Sample) (output_dir : String)
    (S k : Nat) (t : ShardTask) (ht : t ∈ shard_tasks dataset.length S k)
    (hall : ∀ s ∈ shardSlice dataset t.start_offset S,
        invalidFeatures s.input_features = true) :
    process_single_shard dataset t.shard_index t.start_offset output_dir S
        ∈ create_webdataset dataset output_dir S k
    ∧ (process_single_shard dataset t.shard_index t.start_offset output_dir S).path
        = pathJoin output_dir (shardFileName t.shard_index)
    ∧ (process_single_shard dataset t.shard_index t.start_offset output_dir S).records
        = [] := by
  refine ⟨?_, rfl, ?_⟩
  · unfold create_webdataset runTasks
    exact List.mem_map.mpr ⟨t, ht, rfl⟩
  · show save_shard (shardSlice dataset t.start_offset S) = []
    exact save_shard_eq_nil_of_all_invalid _ hall

/-- C8 witness: a one-sample dataset whose only sample has a NaN feature
still gets its (empty) shard file. -/
theorem empty_shard_still_created_witness :
    process_single_shard [Sample.mk [FVal.nan] []] 0 0 "out" 1
        ∈ create_webdataset [Sample.mk [FVal.nan] []] "out" 1 0
    ∧ (process_single_shard [Sample.mk [FVal.nan] []] 0 0 "out" 1).path
        = pathJoin "out" (shardFileName 0)
    ∧ (process_single_shard [Sample.mk [FVal.nan] []] 0 0 "out" 1).records
        = [] :=
  empty_shard_still_created [Sample.mk [FVal.nan] []] "out" 1 0
    ⟨0, 0⟩ (by decide) (by decide)

theorem mem_save_shard_iff (shard_samples : List Sample) (r : Record) :
    r ∈ save_shard shard_samples
      ↔ ∃ j s, shard_samples[j]? = some s
          ∧ invalidFeatures s.input_features = false
          ∧ r = writeRecord j s := by
  unfold save_shard
  rw [List.mem_filterMap]
  constructor
  · rintro ⟨p, hp, hsome⟩
    rw [List.mem_enum_iff_getElem?] at hp
    by_cases hv : invalidFeatures p.2.input_features
    · rw [if_pos hv] at hsome
      exact absurd hsome (by simp)
    · rw [if_neg hv] at hsome
      exact ⟨p.1, p.2, hp, by simpa using hv, (Option.some_injective _ hsome).symm⟩
  · rintro ⟨j, s, hj, hval, rfl⟩
    refine ⟨(j, s), List.mem_enum_iff_getElem?.mpr hj, ?_⟩
    rw [if_neg (by simp [hval])]

/-- C2: the record for the sample at position `j` of a shard slice is
written iff its `input_features` are all finite, whatever its `labels`
hold; and the validator verdict is computed from `input_features` alone via
`np.isnan(...).any() or np.isinf(...).any()`. -/
theorem validator_gates_write (shard_samples : List Sample) (j : Nat)
    (s : Sample) (h : shard_samples[j]? = some s) :
    (writeRecord j s ∈ save_shard shard_samples
        ↔ invalidFeatures s.input_features = false)
    ∧ invalidFeatures s.input_features
        = (np_isnan_any s.input_features || np_isinf_any s.input_features) := by
  refine ⟨⟨?_, ?_⟩, rfl⟩
  · intro hmem
    rw [mem_save_shard_iff] at hmem
    obtain ⟨j', s', hj', hval, heq⟩ := hmem
    have hkey : sampleKey j = sampleKey j' := congrArg Record.key heq
    have hjj : j = j' := sampleKey_injective hkey
    subst hjj
    rw [h] at hj'
    have : s = s' := Option.some_injective _ hj'
    rw [this]
    exact hval
  · intro hval
    rw [mem_save_shard_iff]
    exact ⟨j, s, h, hval, rfl⟩

/-- C2 witness: a sample with finite features and a NaN label is written;
applying the theorem at position 0 of a one-sample slice. -/
theorem validator_gates_write_witness :
    (writeRecord 0 (Sample.mk [FVal.num 1] [FVal.nan])
        ∈ save_shard [Sample.mk [FVal.num 1] [FVal.nan]]
      ↔ invalidFeatures (Sample.mk [FVal.num 1] [FVal.nan]).input_features
          = false)
    ∧ invalidFeatures (Sample.mk [FVal.num 1] [FVal.nan]).input_features
        = (np_isnan_any (Sample.mk [FVal.num 1] [FVal.nan]).input_features
            || np_isinf_any (Sample.mk [FVal.num 1] [FVal.nan]).input_features) :=
  validator_gates_write [Sample.mk [FVal.num 1] [FVal.nan]] 0
    (Sample.mk [FVal.num 1] [FVal.nan]) (by decide)

/-- The positions of a shard slice that survive validation, in slice
order. -/
def validPositions (shard_samples : List Sample) : List Nat :=
  (shard_samples.enum.filter
      fun p => !invalidFeatures p.2.input_features).map Prod.fst

theorem mem_validPositions (shard_samples : List Sample) (j : Nat) :
    j ∈ validPositions shard_samples
      ↔ ∃ s, shard_samples[j]? = some s
          ∧ invalidFeatures s.input_features = false := by
  unfold validPositions
  rw [List.mem_map]
  constructor
  · rintro ⟨p, hp, rfl⟩
    rw [List.mem_filter] at hp
    obtain ⟨henum, hq⟩ := hp
    rw [List.mem_enum_iff_getElem?] at henum
    exact ⟨p.2, henum, by simpa using hq⟩
  · rintro ⟨s, hs, hval⟩
    refine ⟨(j, s), ?_, rfl⟩
    rw [List.mem_filter]
    exact ⟨List.mk_mem_enum_iff_getElem?.mpr hs, by simp [hval]⟩

theorem validPositions_pairwise_lt (shard_samples : List Sample) :
    (validPositions shard_samples).Pairwise (· < ·) := by
  unfold validPositions
  have hsub :
      ((shard_samples.enum.filter
          fun p => !invalidFeatures p.2.input_features).map Prod.fst).Sublist
        (shard_samples.enum.map Prod.fst) :=
    (List.filter_sublist _).map Prod.fst
  rw [List.enum_map_fst] at hsub
  exact (List.pairwise_lt_range _).sublist hsub

/-- C4: the key written for the sample at local position `j` is
`sample{j:06d}`, derived from the position in the input slice; the written
keys are exactly the keys of the surviving input positions (in increasing
position order), they are pairwise distinct, and a position's key appears
iff that position survived validation, so skipped positions leave gaps that
are never renumbered. -/
theorem keys_positional_not_renumbered (shard_samples : List Sample) :
    (save_shard shard_samples).map Record.key
        = (validPositions shard_samples).map sampleKey
    ∧ (validPositions shard_samples).Pairwise (· < ·)
    ∧ ((save_shard shard_samples).map Record.key).Nodup
    ∧ ∀ j s, shard_samples[j]? = some s →
        (sampleKey j ∈ (save_shard shard_samples).map Record.key
          ↔ invalidFeatures s.input_features = false) := by
  have hkeys : (save_shard shard_samples).map Record.key
      = (validPositions shard_samples).map sampleKey := by
    rw [save_shard_eq_filter]
    unfold validPositions
    rw [List.map_map, List.map_map]
    rfl
  have hpw := validPositions_pairwise_lt shard_samples
  refine ⟨hkeys, hpw, ?_, ?_⟩
  · rw [hkeys]
    exact hpw.map sampleKey
      fun a b hab hk => Nat.ne_of_lt hab (sampleKey_injective hk)
  · intro j s hj
    rw [hkeys]
    constructor
    · intro hmem
      obtain ⟨j', hj', hkey⟩ := List.mem_map.mp hmem
      have : j' = j := sampleKey_injective hkey
      subst this
      obtain ⟨s', hs', hval⟩ := (mem_validPositions shard_samples j').mp hj'
      rw [hj] at hs'
      have : s = s' := Option.some_injective _ hs'
      rw [this]
      exact hval
    · intro hval
      exact List.mem_map.mpr
        ⟨j, (mem_validPositions shard_samples j).mpr ⟨s, hj, hval⟩, rfl⟩

/-- C4 witness: a slice with a NaN sample in the middle keeps keys
`sample000000` and `sample000002`, leaving a gap at position 1. -/
theorem keys_positional_not_renumbered_witness :
    (save_shard [Sample.mk [FVal.num 1] [], Sample.mk [FVal.nan] [],
          Sample.mk [FVal.num 3] []]).map Record.key
        = (validPositions [Sample.mk [FVal.num 1] [], Sample.mk [FVal.nan] [],
            Sample.mk [FVal.num 3] []]).map sampleKey
    ∧ (validPositions [Sample.mk [FVal.num 1] [], Sample.mk [FVal.nan] [],
          Sample.mk [FVal.num 3] []]).Pairwise (· < ·)
    ∧ ((save_shard [Sample.mk [FVal.num 1] [], Sample.mk [FVal.nan] [],
          Sample.mk [FVal.num 3] []]).map Record.key).Nodup
    ∧ ∀ j s,
        ([Sample.mk [FVal.num 1] [], Sample.mk [FVal.nan] [],
            Sample.mk [FVal.num 3] []])[j]? = some s →
          (sampleKey j ∈ (save_shard [Sample.mk [FVal.num 1] [],
                Sample.mk [FVal.nan] [], Sample.mk [FVal.num 3] []]).map
              Record.key
            ↔ invalidFeatures s.input_features = false) :=
  keys_positional_not_renumbered
    [Sample.mk [FVal.num 1] [], Sample.mk [FVal.nan] [],
      Sample.mk [FVal.num 3] []]

theorem sum_map_add_sum_map {α : Type} (f g : α → Nat) (l : List α) :
    (l.map f).sum + (l.map g).sum = (l.map fun a => f a + g a).sum := by
  induction l with
  | nil => rfl
  | cons a l ih =>
    simp only [List.map_cons, List.sum_cons]
    omega

theorem skippedCount_eq_countP (shard_samples : List Sample) :
    skippedCount shard_samples
      = shard_samples.countP fun s => invalidFeatures s.input_features := by
  unfold skippedCount
  rw [List.countP_eq_length_filter]

theorem records_add_skipped (shard_samples : List Sample) :
    (save_shard shard_samples).length + skippedCount shard_samples
      = shard_samples.length := by
  rw [length_save_shard, skippedCount_eq_countP]
  exact countP_not_add_countP _ shard_samples

/-- C3: a run over a dataset of length `N` with `shard_size = S > 0`
produces exactly `ceil(N/S)` shard files, and the records written across
all shards plus the samples skipped across all shards account for every
sample: their total is `N`. -/
theorem shard_count_and_sample_conservation (dataset : List Sample)
    (output_dir : String) (S k : Nat) (hS : 0 < S) :
    (create_webdataset dataset output_dir S k).length
        = (dataset.length + S - 1) / S
    ∧ ((create_webdataset dataset output_dir S k).map
          fun f => f.records.length).sum
        + ((shard_tasks dataset.length S k).map
          fun t => skippedCount (shardSlice dataset t.start_offset S)).sum
        = dataset.length := by
  constructor
  · simp [create_webdataset, runTasks, shard_tasks, total_shards]
  · unfold create_webdataset runTasks
    rw [List.map_map]
    have hrec : ((shard_tasks dataset.length S k).map
        ((fun f : ShardFile => f.records.length) ∘ fun t =>
          process_single_shard dataset t.shard_index t.start_offset output_dir S))
        = (shard_tasks dataset.length S k).map
            fun t => (save_shard (shardSlice dataset t.start_offset S)).length := by
      rfl
    rw [hrec, sum_map_add_sum_map]
    have hper : ((shard_tasks dataset.length S k).map fun t =>
        (save_shard (shardSlice dataset t.start_offset S)).length
          + skippedCount (shardSlice dataset t.start_offset S))
        = (shard_tasks dataset.length S k).map fun t =>
            (accessedIndices dataset.length t.start_offset S).length := by
      apply List.map_congr_left
      intro t _
      rw [records_add_skipped, length_shardSlice]
    rw [hper]
    have hflat := congrArg List.length (partition_shard_tasks dataset.length S k hS)
    rw [List.length_flatMap, List.length_range] at hflat
    simpa [Function.comp] using hflat

/-- C3 witness: 5 samples (one invalid), `S = 2`: 3 shard files, and
records plus skips total 5. -/
theorem shard_count_and_sample_conservation_witness :
    (create_webdataset
          [Sample.mk [FVal.num 1] [], Sample.mk [FVal.nan] [],
            Sample.mk [FVal.num 3] [], Sample.mk [FVal.num 4] [],
            Sample.mk [FVal.num 5] []] "out" 2 0).length
        = (List.length
            [Sample.mk [FVal.num 1] [], Sample.mk [FVal.nan] [],
              Sample.mk [FVal.num 3] [], Sample.mk [FVal.num 4] [],
              Sample.mk [FVal.num 5] []] + 2 - 1) / 2
    ∧ ((create_webdataset
          [Sample.mk [FVal.num 1] [], Sample.mk [FVal.nan] [],
            Sample.mk [FVal.num 3] [], Sample.mk [FVal.num 4] [],
            Sample.mk [FVal.num 5] []] "out" 2 0).map
          fun f => f.records.length).sum
        + ((shard_tasks (List.length
            [Sample.mk [FVal.num 1] [], Sample.mk [FVal.nan] [],
              Sample.mk [FVal.num 3] [], Sample.mk [FVal.num 4] [],
              Sample.mk [FVal.num 5] []]) 2 0).map
          fun t => skippedCount (shardSlice
            [Sample.mk [FVal.num 1] [], Sample.mk [FVal.nan] [],
              Sample.mk [FVal.num 3] [], Sample.mk [FVal.num 4] [],
              Sample.mk [FVal.num 5] []] t.start_offset 2)).sum
        = List.length
            [Sample.mk [FVal.num 1] [], Sample.mk [FVal.nan] [],
              Sample.mk [FVal.num 3] [], Sample.mk [FVal.num 4] [],
              Sample.mk [FVal.num 5] []] :=
  shard_count_and_sample_conservation
    [Sample.mk [FVal.num 1] [], Sample.mk [FVal.nan] [],
      Sample.mk [FVal.num 3] [], Sample.mk [FVal.num 4] [],
      Sample.mk [FVal.num 5] []] "out" 2 0 (by decide)

theorem pathJoin_injective_right (dir : String) :
    Function.Injective (pathJoin dir) := by
  intro a b hab
  unfold pathJoin at hab
  have hdata := congrArg String.data hab
  rw [String.data_append, String.data_append, String.data_append,
    String.data_append, List.append_assoc, List.append_assoc] at hdata
  exact String.ext
    (List.append_cancel_left (List.append_cancel_left hdata))

/-- C5: the shard file name is the pure function `shard-{shard_index:05d}.tar`
of the shard index alone, and a run with `total_shards` tasks produces
exactly the paths for indices `shard_start_idx + i`, `i < total_shards`, in
order and without duplicates. -/
theorem shard_names_pure_and_distinct (dataset : List Sample)
    (output_dir : String) (S k : Nat) (_hS : 0 < S) :
    (∀ ds : List Sample, ∀ shard_idx start_idx shard_size : Nat,
        (process_single_shard ds shard_idx start_idx output_dir
            shard_size).path
          = pathJoin output_dir (shardFileName shard_idx))
    ∧ (create_webdataset dataset output_dir S k).map ShardFile.path
        = ((List.range (total_shards dataset.length S)).map
            fun i => pathJoin output_dir (shardFileName (k + i)))
    ∧ ((create_webdataset dataset output_dir S k).map ShardFile.path).Nodup := by
  have hnames : (create_webdataset dataset output_dir S k).map ShardFile.path
      = ((List.range (total_shards dataset.length S)).map
          fun i => pathJoin output_dir (shardFileName (k + i))) := by
    unfold create_webdataset runTasks shard_tasks
    rw [List.map_map, List.map_map]
    rfl
  refine ⟨fun _ _ _ _ => rfl, hnames, ?_⟩
  rw [hnames]
  apply List.Nodup.map
  · intro a b hab
    have := shardFileName_injective (pathJoin_injective_right output_dir hab)
    omega
  · exact List.nodup_range _
/-- C5 witness: 5 samples, `S = 2`, `shard_start_idx = 7`. -/
theorem shard_names_pure_and_distinct_witness :
    (∀ ds : List Sample, ∀ shard_idx start_idx shard_size : Nat,
        (process_single_shard ds shard_idx start_idx "out" shard_size).path
          = pathJoin "out" (shardFileName shard_idx))
    ∧ (create_webdataset
          [Sample.mk [FVal.num 1] [], Sample.mk [FVal.num 2] [],
            Sample.mk [FVal.num 3] [], Sample.mk [FVal.num 4] [],
            Sample.mk [FVal.num 5] []] "out" 2 7).map ShardFile.path
        = ((List.range (total_shards (List.length
            [Sample.mk [FVal.num 1] [], Sample.mk [FVal.num 2] [],
              Sample.mk [FVal.num 3] [], Sample.mk [FVal.num 4] [],
              Sample.mk [FVal.num 5] []]) 2)).map
            fun i => pathJoin "out" (shardFileName (7 + i)))
    ∧ ((create_webdataset
          [Sample.mk [FVal.num 1] [], Sample.mk [FVal.num 2] [],
            Sample.mk [FVal.num 3] [], Sample.mk [FVal.num 4] [],
            Sample.mk [FVal.num 5] []] "out" 2 7).map ShardFile.path).Nodup :=
  shard_names_pure_and_distinct
    [Sample.mk [FVal.num 1] [], Sample.mk [FVal.num 2] [],
      Sample.mk [FVal.num 3] [], Sample.mk [FVal.num 4] [],
      Sample.mk [FVal.num 5] []] "out" 2 7 (by decide)

/-- C6: shard contents are a deterministic function of the dataset and the
task parameters alone.  Whatever order `imap_unordered` completes the tasks
in, the shard produced at each completion slot is the pure value of
`process_single_shard` on that slot's task, and two executions whose
completion orders are permutations of each other produce permuted — in
particular, identical as multisets — shard outputs. -/
theorem shard_contents_deterministic (dataset : List Sample)
    (output_dir : String) (S : Nat) (order₁ order₂ : List ShardTask)
    (h : order₁.Perm order₂) :
    (runTasks dataset output_dir S order₁).Perm
        (runTasks dataset output_dir S order₂)
    ∧ ∀ (i : Nat) (t : ShardTask), order₁[i]? = some t →
        (runTasks dataset output_dir S order₁)[i]?
          = some (process_single_shard dataset t.shard_index t.start_offset
              output_dir S) := by
  constructor
  · exact h.map _
  · intro i t hit
    unfold runTasks
    rw [List.getElem?_map, hit]
    rfl

/-- C6 witness: the two-task list run in both orders. -/
theorem shard_contents_deterministic_witness :
    (runTasks [Sample.mk [FVal.num 1] []] "out" 1
        [ShardTask.mk 0 0, ShardTask.mk 1 1]).Perm
        (runTasks [Sample.mk [FVal.num 1] []] "out" 1
          [ShardTask.mk 1 1, ShardTask.mk 0 0])
    ∧ ∀ (i : Nat) (t : ShardTask),
        ([ShardTask.mk 0 0, ShardTask.mk 1 1])[i]? = some t →
        (runTasks [Sample.mk [FVal.num 1] []] "out" 1
            [ShardTask.mk 0 0, ShardTask.mk 1 1])[i]?
          = some (process_single_shard [Sample.mk [FVal.num 1] []]
              t.shard_index t.start_offset "out" 1) :=
  shard_contents_deterministic [Sample.mk [FVal.num 1] []] "out" 1
    [ShardTask.mk 0 0, ShardTask.mk 1 1]
    [ShardTask.mk 1 1, ShardTask.mk 0 0] (by decide)

/-- C7: every written record decodes back to its source sample: the
`input.npz` member loads as the named array `input_features` holding the
sample's `input_features`, and the `labels.npz` member loads as the named
array `labels` holding the sample's `labels`, exactly. -/
theorem record_members_roundtrip (shard_samples : List Sample) (r : Record)
    (h : r ∈ save_shard shard_samples) :
    ∃ j s, shard_samples[j]? = some s
      ∧ r = writeRecord j s
      ∧ np_load r.input_npz = some ("input_features", s.input_features)
      ∧ np_load r.labels_npz = some ("labels", s.labels) := by
  rw [mem_save_shard_iff] at h
  obtain ⟨j, s, hj, _, rfl⟩ := h
  exact ⟨j, s, hj, rfl, np_load_savez_compressed _ _,
    np_load_savez_compressed _ _⟩

/-- C7 witness: the record of a concrete sample with a negative feature and
an infinite label decodes back to that sample. -/
theorem record_members_roundtrip_witness :
    ∃ j s, ([Sample.mk [FVal.num (-2), FVal.num 3] [FVal.inf]])[j]? = some s
      ∧ writeRecord 0 (Sample.mk [FVal.num (-2), FVal.num 3] [FVal.inf])
          = writeRecord j s
      ∧ np_load (writeRecord 0
            (Sample.mk [FVal.num (-2), FVal.num 3] [FVal.inf])).input_npz
          = some ("input_features", s.input_features)
      ∧ np_load (writeRecord 0
            (Sample.mk [FVal.num (-2), FVal.num 3] [FVal.inf])).labels_npz
          = some ("labels", s.labels) :=
  record_members_roundtrip
    [Sample.mk [FVal.num (-2), FVal.num 3] [FVal.inf]]
    (writeRecord 0 (Sample.mk [FVal.num (-2), FVal.num 3] [FVal.inf]))
    (by decide)

/-- C10: opening the shard archive for writing at a path that already holds
a file replaces the previous contents: after the write, reading the path
yields exactly the new shard's records — no failure, no append of the old
records. -/
theorem existing_shard_file_overwritten (fs : FileStore) (output_dir : String)
    (shard_idx : Nat) (old : List Record) (shard_samples : List Sample)
    (_h : fsRead fs (pathJoin output_dir (shardFileName shard_idx)) = some old) :
    fsRead (save_shard_fs fs output_dir shard_idx shard_samples)
        (pathJoin output_dir (shardFileName shard_idx))
      = some (save_shard shard_samples) := by
  unfold save_shard_fs fsWrite fsRead
  rw [List.find?_cons_of_pos _ (by simp)]
  rfl

/-- C10 witness: a store already holding an (empty) file at the shard path
of index 0 is overwritten with the one-record shard of a fresh sample. -/
theorem existing_shard_file_overwritten_witness :
    fsRead (save_shard_fs [(pathJoin "out" (shardFileName 0), [])] "out" 0
        [Sample.mk [FVal.num 4] [FVal.num 5]])
        (pathJoin "out" (shardFileName 0))
      = some (save_shard [Sample.mk [FVal.num 4] [FVal.num 5]]) :=
  existing_shard_file_overwritten [(pathJoin "out" (shardFileName 0), [])]
    "out" 0 [] [Sample.mk [FVal.num 4] [FVal.num 5]] (by decide)
